import Mathlib

set_option linter.unusedVariables false

/-!
Verification development for two build-pipeline command-line scripts:
a tar/LZ4 archiver (lz4_tar.py) and a material-definition merger
(mat_to_gltf.py).  Python data is embedded shallowly: JSON values become
an inductive type, Python numbers are modelled as rationals, fallible
operations (indexing, attribute access, division) return Except values
mirroring the exception Python would raise, and the scripts' mutable
state (image/texture lists, the loaded definitions dict, size
accumulators) is threaded explicitly.  Association lists stand for
Python dicts (unique keys, insertion order preserved); an image dict,
whose only field ever read or written is "uri", is represented by that
uri string.  os.path functions are modelled after their POSIX
definitions.
-/

/-- The Python exceptions the two scripts can raise. -/
inductive PyErr where
  | typeError
  | keyError
  | attributeError
  | zeroDivisionError
  | indexError
  | nameError
deriving DecidableEq, Repr

/-- JSON values as loaded by json.load; numbers are modelled as rationals. -/
inductive JVal where
  | null
  | bool (b : Bool)
  | num (q : ℚ)
  | str (s : String)
  | arr (xs : List JVal)
  | obj (fields : List (String × JVal))

/-- Python truthiness of a JSON value. -/
def truthy : JVal → Bool
  | .null => false
  | .bool b => b
  | .num q => q != 0
  | .str s => s != ""
  | .arr l => !l.isEmpty
  | .obj f => !f.isEmpty

/-- Lookup in a dict modelled as an association list (unique keys). -/
def dictGet (l : List (String × JVal)) (k : String) : Option JVal :=
  match l with
  | [] => none
  | (k2, v) :: rest => if k2 == k then some v else dictGet rest k

/-- Dict assignment: replace the value in place if the key exists, else append. -/
def dictSet (l : List (String × JVal)) (k : String) (v : JVal) : List (String × JVal) :=
  match l with
  | [] => [(k, v)]
  | (k2, v2) :: rest => if k2 == k then (k2, v) :: rest else (k2, v2) :: dictSet rest k v

/-- Python d.get(key, default); AttributeError when the receiver is not a dict. -/
def pyGet (v : JVal) (k : String) (dflt : JVal) : Except PyErr JVal :=
  match v with
  | .obj f => .ok ((dictGet f k).getD dflt)
  | _ => .error .attributeError

/-- Python len(); TypeError on values with no length. -/
def pyLen (v : JVal) : Except PyErr Nat :=
  match v with
  | .arr l => .ok l.length
  | .str s => .ok s.length
  | .obj f => .ok f.length
  | _ => .error .typeError

/-- Python any() over an iterable value; TypeError on non-iterables.
Iterating a string yields its (always truthy) characters, iterating a
dict yields its keys. -/
def pyAny (v : JVal) : Except PyErr Bool :=
  match v with
  | .arr l => .ok (l.any truthy)
  | .str s => .ok (s.length != 0)
  | .obj f => .ok (f.any (fun kv => kv.1 != ""))
  | _ => .error .typeError

/-- Numeric value of a Python number (bools are ints); TypeError otherwise. -/
def pyNum (v : JVal) : Except PyErr ℚ :=
  match v with
  | .num q => .ok q
  | .bool b => .ok (if b then 1 else 0)
  | _ => .error .typeError

/-- Python list.append; AttributeError when the receiver is not a list. -/
def pyAppend (v x : JVal) : Except PyErr JVal :=
  match v with
  | .arr l => .ok (.arr (l ++ [x]))
  | _ => .error .attributeError

/-- Python v[i] for a non-negative integer index. -/
def pyIndex (v : JVal) (i : Nat) : Except PyErr JVal :=
  match v with
  | .arr l =>
    match l.get? i with
    | some x => .ok x
    | none => .error .indexError
  | .str s =>
    match s.data.get? i with
    | some c => .ok (.str (String.mk [c]))
    | none => .error .indexError
  | .obj _ => .error .keyError
  | _ => .error .typeError

/-- Rational addition, written through mkRat so that it evaluates by
kernel reduction (the library's Rat.add is irreducible); proved equal to
the library operation below. -/
def ratAdd (a b : ℚ) : ℚ := mkRat (a.num * b.den + b.num * a.den) (a.den * b.den)

/-- Rational subtraction through mkRat; proved equal to the library
operation below. -/
def ratSub (a b : ℚ) : ℚ := mkRat (a.num * b.den - b.num * a.den) (a.den * b.den)

/-- Rational division through Rat.divInt; proved equal to the library
operation below (for a nonzero divisor, the only way the model uses it). -/
def ratDiv (a b : ℚ) : ℚ := Rat.divInt (a.num * (b.den : Int)) ((a.den : Int) * b.num)

/-- Python true division; ZeroDivisionError on a zero denominator. -/
def pyDiv (a b : ℚ) : Except PyErr ℚ :=
  if b = 0 then .error .zeroDivisionError else .ok (ratDiv a b)

/-- A texture-list entry: the optional "source" image index and the
optional MSFT_texture_dds extension block's image index. -/
structure Texture where
  source : Option Nat
  extDds : Option Nat
deriving DecidableEq, Repr

/-- The merger's mutable state: the images list (each entry represented
by its uri), the textures list, the anyDdsTextures global, and the
loaded material-definitions dict (mutable because the script appends the
opacity to a definition's Diffuse list in place). -/
structure MState where
  images : List String
  textures : List Texture
  anyDds : Bool
  defs : List (String × JVal)

/-- The scan loop inside add_image: index of the first image whose uri matches. -/
def findUri (p : String) : List String → Nat → Option Nat
  | [], _ => none
  | u :: rest, i => if u == p then some i else findUri p rest (i + 1)

/-- add_image from mat_to_gltf.py: return the index of an existing image
with this uri, else append a new image and return its index. -/
def add_image (images : List String) (path : String) : Nat × List String :=
  match findUri path images 0 with
  | some i => (i, images)
  | none => (images.length, images ++ [path])

/-- The scan loop inside add_texture.  It reads texture["source"]
unconditionally, so an entry without a source field raises KeyError;
otherwise it matches on the source index or, when an extensions block is
present, on the DDS image index. -/
def texScan (regular? dds? : Option Nat) : List Texture → Nat → Except PyErr (Option Nat)
  | [], _ => .ok none
  | t :: rest, i =>
    match t.source with
    | none => .error .keyError
    | some sv =>
      if regular? == some sv then .ok (some i)
      else
        match t.extDds with
        | some dv => if dds? == some dv then .ok (some i) else texScan regular? dds? rest (i + 1)
        | none => texScan regular? dds? rest (i + 1)

/-- The tail of add_texture: return a matching texture's index or append
a new entry built from the optional regular and DDS image indices. -/
def findOrAddTexture (regular? dds? : Option Nat) (st : MState) :
    Except PyErr (Nat × MState) := do
  match ← texScan regular? dds? st.textures 0 with
  | some i => .ok (i, st)
  | none =>
    .ok (st.textures.length, { st with textures := st.textures ++ [⟨regular?, dds?⟩] })

/-- path.lower().endswith(".dds"). -/
def lowerEndsWithDds (s : String) : Bool :=
  ".dds".data.isSuffixOf (s.data.map Char.toLower)

/-- Python path[:-4]. -/
def sliceDropRight4 (s : String) : String :=
  ⟨s.data.take (s.data.length - 4)⟩

/-- add_texture from mat_to_gltf.py.  fs is the set of paths for which
os.path.exists returns true.  For a DDS path the anyDdsTextures flag is
set, a same-named .png then .jpg companion is looked up as the regular
image (absent when neither exists), and the DDS path itself becomes the
extension image; otherwise the path is the regular image. -/
def add_texture (fs : List String) (path : String) (st : MState) :
    Except PyErr (Nat × MState) :=
  if lowerEndsWithDds path then
    let st := { st with anyDds := true }
    let png := sliceDropRight4 path ++ ".png"
    let (regular?, st) :=
      if fs.contains png then
        let (i, imgs) := add_image st.images png
        (some i, { st with images := imgs })
      else
        let jpg := sliceDropRight4 path ++ ".jpg"
        if fs.contains jpg then
          let (i, imgs) := add_image st.images jpg
          (some i, { st with images := imgs })
        else (none, st)
    let (d, imgs) := add_image st.images path
    let st := { st with images := imgs }
    findOrAddTexture regular? (some d) st
  else
    let (i, imgs) := add_image st.images path
    let st := { st with images := imgs }
    findOrAddTexture (some i) none st

/-- Lines 100-107 of the material loop: set alphaMode to MASK (double
sided) for an alpha-tested definition, BLEND (double sided) for a
transparent one, else OPAQUE. -/
def applyAlpha (matdef : JVal) (node : List (String × JVal)) :
    Except PyErr (List (String × JVal)) := do
  let a ← pyGet matdef "AlphaTested" (.bool false)
  if truthy a then
    .ok (dictSet (dictSet node "alphaMode" (.str "MASK")) "doubleSided" (.bool true))
  else do
    let t ← pyGet matdef "Transparent" (.bool false)
    if truthy t then
      .ok (dictSet (dictSet node "alphaMode" (.str "BLEND")) "doubleSided" (.bool true))
    else
      .ok (dictSet node "alphaMode" (.str "OPAQUE"))

/-- Lines 109-111 of the material loop: copy the Emittance value as
emissiveFactor when any() of its elements is truthy and its length is 3. -/
def applyEmissive (matdef : JVal) (node : List (String × JVal)) :
    Except PyErr (List (String × JVal)) := do
  let em ← pyGet matdef "Emittance" (.arr [])
  let a ← pyAny em
  if a then do
    let n ← pyLen em
    if n == 3 then .ok (dictSet node "emissiveFactor" em) else .ok node
  else
    .ok node

/-- Resolving one texture-slot value: the path must be a string (a
non-string has no lower() method). -/
def slotTexture (fs : List String) (st : MState) (v : JVal) : Except PyErr (Nat × MState) :=
  match v with
  | .str s => add_texture fs s st
  | _ => .error .attributeError

/-- Lines 120-145 of the material loop: when the Textures dict is truthy
resolve the Emittance, Bumpmap, Diffuse and Specular slots in that
order; emissive and normal textures attach to the node, diffuse and
specular textures to the active shading block under convention-specific
names.  Returns the node, the block, the truthiness of the diffuse and
specular slot values, and the state. -/
def textureStage (sg : Bool) (fs : List String) (matdef : JVal)
    (node block : List (String × JVal)) (st : MState) :
    Except PyErr (List (String × JVal) × List (String × JVal) × Bool × Bool × MState) := do
  let texdefs ← pyGet matdef "Textures" (.obj [])
  if truthy texdefs then do
    let emv ← pyGet texdefs "Emittance" .null
    let (node, st) ←
      if truthy emv then do
        let (ti, st) ← slotTexture fs st emv
        pure (dictSet node "emissiveTexture" (.obj [("index", .num (ti : ℚ))]), st)
      else pure (node, st)
    let nmv ← pyGet texdefs "Bumpmap" .null
    let (node, st) ←
      if truthy nmv then do
        let (ti, st) ← slotTexture fs st nmv
        pure (dictSet node "normalTexture" (.obj [("index", .num (ti : ℚ))]), st)
      else pure (node, st)
    let dfv ← pyGet texdefs "Diffuse" .null
    let (block, st) ←
      if truthy dfv then do
        let (ti, st) ← slotTexture fs st dfv
        pure (dictSet block (if sg then "diffuseTexture" else "baseColorTexture")
          (.obj [("index", .num (ti : ℚ))]), st)
      else pure (block, st)
    let spv ← pyGet texdefs "Specular" .null
    let (block, st) ←
      if truthy spv then do
        let (ti, st) ← slotTexture fs st spv
        pure (dictSet block (if sg then "specularGlossinessTexture" else "metallicRoughnessTexture")
          (.obj [("index", .num (ti : ℚ))]), st)
      else pure (block, st)
    .ok (node, block, truthy dfv, truthy spv, st)
  else
    .ok (node, block, false, false, st)

/-- Replacing the Diffuse value inside a definition object; used to model
that diffuseFactor.append(opacity) mutates the list stored in the
definitions dict. -/
def setDiffuseInDef (matdef : JVal) (v : JVal) : JVal :=
  match matdef with
  | .obj f => .obj (dictSet f "Diffuse" v)
  | x => x

/-- Lines 147-153 and 162-167 of the material loop: when no diffuse
texture was attached, fetch the Diffuse color (len(None) raises
TypeError when the key is absent), append the Opacity scalar (default
1.0) in place when the color has exactly 3 components, and store it as
diffuseFactor (spec-gloss) or baseColorFactor (metallic-roughness).
Returns the block, the local diffuseFactor variable (absent when the
branch was skipped, which later triggers Python's NameError), and the
state with the in-place list mutation reflected in the definitions
dict. -/
def diffuseFactorPart (sg : Bool) (name : String) (matdef : JVal)
    (block : List (String × JVal)) (hasDiffTex : Bool) (st : MState) :
    Except PyErr (List (String × JVal) × Option JVal × MState) :=
  if hasDiffTex then .ok (block, none, st)
  else do
    let diffuseFactor ← pyGet matdef "Diffuse" .null
    let opacity ← pyGet matdef "Opacity" (.num 1)
    let n ← pyLen diffuseFactor
    if n == 3 then do
      let newDiff ← pyAppend diffuseFactor opacity
      .ok (dictSet block (if sg then "diffuseFactor" else "baseColorFactor") newDiff,
        some newDiff,
        { st with defs := dictSet st.defs name (setDiffuseInDef matdef newDiff) })
    else
      .ok (block, some diffuseFactor, st)

/-- One term of the spec-to-metalness loop:
specularFactor[i] / (specularFactor[i] + diffuseFactor[i]). -/
def metalTerm (spec diff : JVal) (i : Nat) : Except PyErr ℚ := do
  let sv ← pyIndex spec i
  let dv ← pyIndex diff i
  let sq ← pyNum sv
  let dq ← pyNum dv
  pyDiv sq (ratAdd sq dq)

/-- The three iterations of the metallic-factor loop, summed. -/
def metallicSum (spec diff : JVal) : Except PyErr ℚ := do
  let a0 ← metalTerm spec diff 0
  let a1 ← metalTerm spec diff 1
  let a2 ← metalTerm spec diff 2
  .ok (ratAdd (ratAdd a0 a1) a2)

/-- Lines 155-160 and 169-178 of the material loop: when no specular
texture was attached, fetch the Specular color (len(None) raises
TypeError when absent).  Spec-gloss: copy it as specularFactor when it
has 3 components and copy Shininess as glossinessFactor.
Metallic-roughness: derive the metallic factor by averaging
specular/(specular+diffuse) over the channels (referencing the local
diffuseFactor, a NameError when the diffuse branch was skipped) and set
roughnessFactor to 1 - Shininess. -/
def specularFactorPart (sg : Bool) (matdef : JVal) (block : List (String × JVal))
    (diffOpt : Option JVal) (hasSpecTex : Bool) :
    Except PyErr (List (String × JVal)) :=
  if hasSpecTex then .ok block
  else do
    let specularFactor ← pyGet matdef "Specular" .null
    let n ← pyLen specularFactor
    if sg then do
      let block := if n == 3 then dictSet block "specularFactor" specularFactor else block
      let sh ← pyGet matdef "Shininess" .null
      .ok (dictSet block "glossinessFactor" sh)
    else do
      let block ←
        if n == 3 then
          match diffOpt with
          | none => .error .nameError
          | some diffuseFactor => do
            let m ← metallicSum specularFactor diffuseFactor
            pure (dictSet block "metallicFactor" (.num (ratDiv m 3)))
        else pure block
      let sh ← pyGet matdef "Shininess" .null
      let shq ← pyNum sh
      .ok (dictSet block "roughnessFactor" (.num (ratSub 1 shq)))

/-- The key under which the active shading block lives on the node, and
the value wrapping a block under that key (spec-gloss blocks sit inside
an extensions dict). -/
def blockKey (sg : Bool) : String :=
  if sg then "extensions" else "pbrMetallicRoughness"

/-- Wrap a shading block for storage on the node. -/
def wrapBlock (sg : Bool) (b : List (String × JVal)) : JVal :=
  if sg then .obj [("KHR_materials_pbrSpecularGlossiness", .obj b)] else .obj b

/-- The body of the material loop for a node whose definition was found:
rebuild the node as {name}, apply the alpha, emissive, shading-block,
texture and factor steps in source order.  The shading block is inserted
before the texture stage (as in the script) and its final contents are
written back in place at the end, matching Python dict mutation. -/
def processMatched (sg : Bool) (fs : List String) (name : String) (matdef : JVal)
    (st : MState) : Except PyErr (JVal × MState) := do
  let node0 : List (String × JVal) := [("name", .str name)]
  let node1 ← applyAlpha matdef node0
  let node2 ← applyEmissive matdef node1
  let node3 := dictSet node2 (blockKey sg) (wrapBlock sg [])
  let (node4, block1, hasDiff, hasSpec, st1) ← textureStage sg fs matdef node3 [] st
  let (block2, diffOpt, st2) ← diffuseFactorPart sg name matdef block1 hasDiff st1
  let block3 ← specularFactorPart sg matdef block2 diffOpt hasSpec
  .ok (.obj (dictSet node4 (blockKey sg) (wrapBlock sg block3)), st2)

/-- Lines 90-98: one iteration of the material loop.  The try block
looks up matnode["name"] in the definitions dict; a KeyError (missing
name key, or name not among the definitions) reaches the handler, whose
warning print evaluates matnode.name on a dict and therefore raises an
uncaught AttributeError.  An unhashable name value raises TypeError from
the dict lookup itself, and a non-dict node raises TypeError from
matnode["name"]. -/
def processNode (sg : Bool) (fs : List String) (node : JVal) (st : MState) :
    Except PyErr (JVal × MState) :=
  match node with
  | .obj nfields =>
    match dictGet nfields "name" with
    | none => .error .attributeError
    | some nv =>
      match nv with
      | .str s =>
        match dictGet st.defs s with
        | none => .error .attributeError
        | some matdef => processMatched sg fs s matdef st
      | .arr _ => .error .typeError
      | .obj _ => .error .typeError
      | _ => .error .attributeError
  | _ => .error .typeError

/-- The whole material loop: process the scene's material nodes in
order, threading the image/texture/definition state; the first uncaught
exception aborts the run. -/
def mergeMaterials (sg : Bool) (fs : List String) (nodes : List JVal) (st : MState) :
    Except PyErr (List JVal × MState) :=
  match nodes with
  | [] => .ok ([], st)
  | n :: rest => do
    let (n2, st2) ← processNode sg fs n st
    let (l, st3) ← mergeMaterials sg fs rest st2
    .ok (n2 :: l, st3)

/-- The ".." path component. -/
def dd : List Char := ['.', '.']

/-- Python path.split("/") on a path given as a character list. -/
def splitSep : List Char → List (List Char)
  | [] => [[]]
  | c :: cs =>
    if c = '/' then [] :: splitSep cs
    else
      match splitSep cs with
      | [] => [[c]]
      | g :: gs => (c :: g) :: gs

/-- Python "/".join on a list of components. -/
def joinSep : List (List Char) → List Char
  | [] => []
  | [g] => g
  | g :: gs => g ++ '/' :: joinSep gs

/-- One iteration of posixpath.normpath's component loop: skip empty and
"." components; append a component unless it is a ".." that can cancel a
previous real component (never at the root of an absolute path). -/
def collapseStep (isAbs : Bool) (acc : List (List Char)) (comp : List Char) :
    List (List Char) :=
  if comp = [] ∨ comp = ['.'] then acc
  else if comp ≠ dd ∨ (isAbs = false ∧ acc = []) ∨ (acc ≠ [] ∧ acc.getLast? = some dd) then
    acc ++ [comp]
  else if acc ≠ [] then acc.dropLast
  else acc

/-- posixpath.normpath's component loop. -/
def collapse (isAbs : Bool) (cs : List (List Char)) : List (List Char) :=
  cs.foldl (collapseStep isAbs) []

/-- posixpath.normpath's initial-slash count: 2 for a path starting with
exactly two slashes, 1 for any other leading slash, else 0. -/
def slashesOf (p : List Char) : Nat :=
  if p.take 1 = ['/'] then
    if p.take 2 = ['/', '/'] ∧ p.take 3 ≠ ['/', '/', '/'] then 2 else 1
  else 0

/-- posixpath.normpath: empty paths become "."; otherwise the path is
split on "/", the component loop is run (with the initial-slash count
as the absolute flag), the surviving components are rejoined behind the
initial slashes, and an empty result falls back to ".". -/
def normpath (p : List Char) : List Char :=
  if p = [] then ['.']
  else if List.replicate (slashesOf p) '/' ++
      joinSep (collapse (slashesOf p != 0) (splitSep p)) = [] then ['.']
  else List.replicate (slashesOf p) '/' ++
    joinSep (collapse (slashesOf p != 0) (splitSep p))

/-- posixpath.join for two components as used by the archiver. -/
def pyJoin (a b : List Char) : List Char :=
  if b.take 1 = ['/'] then b
  else if a = [] ∨ a.getLast? = some '/' then a ++ b
  else a ++ '/' :: b

/-- normalize_path from lz4_tar.py: normpath, then prepend the configured
prefix when it is non-empty, then turn backslashes into forward slashes. -/
def normalize_path (pfx p : List Char) : List Char :=
  let path := normpath p
  let path := if pfx ≠ [] then pyJoin pfx path else path
  path.map (fun c => if c = '\\' then '/' else c)

/-- Python str.rfind for a single character: highest index, -1 if absent. -/
def rfindIdx (c : Char) : List Char → Int
  | [] => -1
  | x :: xs =>
    let r := rfindIdx c xs
    if r ≥ 0 then r + 1
    else if x = c then 0 else -1

/-- The extension part of posixpath.splitext: the substring from the
last dot after the last slash, unless every basename character before
that dot is itself a dot (a leading-dot file has no extension). -/
def splitextExt (p : List Char) : List Char :=
  let sepIndex := rfindIdx '/' p
  let dotIndex := rfindIdx '.' p
  if sepIndex < dotIndex then
    let base := (p.drop (sepIndex + 1).toNat).take (dotIndex - sepIndex - 1).toNat
    if base.any (fun c => c ≠ '.') then p.drop dotIndex.toNat else []
  else []

/-- The archiver's command-line arguments: the LZ4 compression level
(an int, 0 disables compression), the archive path prefix, and the list
of extensions exempt from compression. -/
structure ArchArgs where
  compress : Int
  pfx : List Char
  noCompress : List (List Char)
deriving DecidableEq, Repr

/-- One archive entry: its archive path, payload bytes and recorded size. -/
structure TarEntry where
  archive_path : List Char
  payload : List Nat
  size : Nat
deriving DecidableEq, Repr

/-- process_file from lz4_tar.py, after a successful read: compress the
contents and append ".lz4" to the archive path when the level is nonzero
and the extension is not exempt, else store the bytes unchanged; the
recorded entry size is the emitted payload length.  lz4c abstracts
lz4.frame.compress at a given level. -/
def process_file (lz4c : Int → List Nat → List Nat) (a : ArchArgs)
    (path : List Char) (contents : List Nat) : TarEntry :=
  let ap := normalize_path a.pfx path
  if a.compress ≠ 0 ∧ splitextExt path ∉ a.noCompress then
    let comp := lz4c a.compress contents
    { archive_path := ap ++ ".lz4".data, payload := comp, size := comp.length }
  else
    { archive_path := ap, payload := contents, size := contents.length }

/-- How a run of the archiver ends: normal termination (exit status 0)
with the entries written and the two size totals, sys.exit with a code,
or an uncaught Python exception. -/
inductive ArchOutcome where
  | success (entries : List TarEntry) (origTotal emitTotal : Nat)
  | exited (code : Nat) (entries : List TarEntry)
  | pyError (e : PyErr)
deriving DecidableEq, Repr

/-- The statistics step after the loop: when compression was requested
the ratio original/emitted is printed, dividing by the emitted total. -/
def archFinish (a : ArchArgs) (entries : List TarEntry) (o c : Nat) : ArchOutcome :=
  if a.compress ≠ 0 then
    if c = 0 then .pyError .zeroDivisionError else .success entries o c
  else .success entries o c

/-- The archiver's main loop over input files: an unreadable file (fs
returns none) prints an error and exits with status 1 at once; otherwise
the entry is appended and both size accumulators advance. -/
def archGo (lz4c : Int → List Nat → List Nat) (a : ArchArgs)
    (fs : List Char → Option (List Nat)) :
    List (List Char) → List TarEntry → Nat → Nat → ArchOutcome
  | [], entries, o, c => archFinish a entries o c
  | p :: rest, entries, o, c =>
    match fs p with
    | none => .exited 1 entries
    | some contents =>
      let e := process_file lz4c a p contents
      archGo lz4c a fs rest (entries ++ [e]) (o + contents.length) (c + e.size)

/-- A whole run of lz4_tar.py on a list of input files. -/
def runArchiver (lz4c : Int → List Nat → List Nat) (a : ArchArgs)
    (fs : List Char → Option (List Nat)) (inputs : List (List Char)) : ArchOutcome :=
  archGo lz4c a fs inputs [] 0 0

/-- The entries a list of readable inputs contributes to the archive. -/
def archEntries (lz4c : Int → List Nat → List Nat) (a : ArchArgs)
    (fs : List Char → Option (List Nat)) (inputs : List (List Char)) : List TarEntry :=
  inputs.filterMap (fun p => (fs p).map (process_file lz4c a p))

/-- The total original size of a list of readable inputs. -/
def origTotalOf (fs : List Char → Option (List Nat)) (inputs : List (List Char)) : Nat :=
  (inputs.filterMap fs).foldr (fun ct n => ct.length + n) 0

/-- The total emitted size of a list of readable inputs. -/
def emitTotalOf (lz4c : Int → List Nat → List Nat) (a : ArchArgs)
    (fs : List Char → Option (List Nat)) (inputs : List (List Char)) : Nat :=
  (archEntries lz4c a fs inputs).foldr (fun e n => e.size + n) 0

/-- Whether an archiver run ended with exit status 0. -/
def isSuccess : ArchOutcome → Bool
  | .success _ _ _ => true
  | _ => false

/-- The material definition of the spec's worked example:
AlphaTested true, Diffuse [1,0,0], Specular [0,0,0], Shininess 0.5. -/
def exampleDef : JVal :=
  .obj [("AlphaTested", .bool true), ("Diffuse", .arr [.num 1, .num 0, .num 0]),
    ("Specular", .arr [.num 0, .num 0, .num 0]), ("Shininess", .num (mkRat 1 2))]

/-- An initial merger state holding only the worked example's definition
under the name M1. -/
def exampleState : MState := ⟨[], [], false, [("M1", exampleDef)]⟩

/-- A definition whose emissive color is exactly [0,0,0] and whose other
fields let the metallic-roughness branch finish without error. -/
def zeroEmissiveDef : JVal :=
  .obj [("Emittance", .arr [.num 0, .num 0, .num 0]),
    ("Diffuse", .arr [.num 1, .num 1, .num 1]), ("Specular", .arr [.num 0, .num 0, .num 0]),
    ("Shininess", .num (mkRat 1 2))]

/-- A definition like zeroEmissiveDef but with a truthy emissive
component, so the emissive color is copied. -/
def smallEmissiveDef : JVal :=
  .obj [("Emittance", .arr [.num 0, .num 0, .num 5]),
    ("Diffuse", .arr [.num 1, .num 1, .num 1]), ("Specular", .arr [.num 0, .num 0, .num 0]),
    ("Shininess", .num (mkRat 1 2))]

/-- Lookup of a field on the node produced by a successful processNode
run: none when the run failed, some (dictGet ...) when it succeeded. -/
def nodeField (r : Except PyErr (JVal × MState)) (k : String) : Option (Option JVal) :=
  match r with
  | .ok (.obj nf, _) => some (dictGet nf k)
  | _ => none

/-- A clean normpath component: non-empty and not ".". -/
def CleanComp (g : List Char) : Prop := g ≠ [] ∧ g ≠ ['.']

/-- The ".." components form a prefix of the list. -/
def DDPre (cs : List (List Char)) : Prop :=
  ∃ m rest, cs = List.replicate m dd ++ rest ∧ dd ∉ rest

/-- The invariant of posixpath.normpath's accumulator: components are
clean, and ".." occurs never (absolute path) or only as a leading run
(relative path). -/
def CleanComps (isAbs : Bool) (cs : List (List Char)) : Prop :=
  (∀ g ∈ cs, CleanComp g) ∧ (isAbs = true → dd ∉ cs) ∧ (isAbs = false → DDPre cs)

theorem ratAdd_eq (a b : ℚ) : ratAdd a b = a + b := by
  rw [ratAdd, Rat.add_def, Rat.normalize_eq_mkRat]

theorem ratSub_eq (a b : ℚ) : ratSub a b = a - b := by
  rw [ratSub, Rat.sub_def, Rat.normalize_eq_mkRat]

theorem ratDiv_eq (a b : ℚ) (hb : b ≠ 0) : ratDiv a b = a / b := by
  have hbn : (b.num : ℚ) ≠ 0 := by
    simpa [Rat.num_eq_zero] using hb
  have had : (a.den : ℚ) ≠ 0 := by
    exact_mod_cast a.den_nz
  have hbd : (b.den : ℚ) ≠ 0 := by
    exact_mod_cast b.den_nz
  have hA : (a.num : ℚ) = a * a.den := (div_eq_iff had).mp (Rat.num_div_den a)
  have hB : (b.num : ℚ) = b * b.den := (div_eq_iff hbd).mp (Rat.num_div_den b)
  rw [ratDiv, Rat.divInt_eq_div]
  push_cast
  rw [div_eq_div_iff (mul_ne_zero had hbn) hb, hA, hB]
  ring

theorem exceptBind_ok {ε α β : Type} (x : α) (f : α → Except ε β) :
    (Except.ok x >>= f : Except ε β) = f x := rfl

theorem exceptBind_err {ε α β : Type} (e : ε) (f : α → Except ε β) :
    (Except.error e >>= f : Except ε β) = .error e := rfl

/-- C1: the claim is false as stated.  Merging the example definition
for node M1 in metallic-roughness mode does not produce the claimed
output node at all: the metallic-factor derivation divides
specular by specular+diffuse, which is 0+0 in the green channel, so the
merger aborts with an uncaught ZeroDivisionError. -/
theorem c1_example_as_stated_false :
    processNode false [] (.obj [("name", .str "M1")]) exampleState =
      .error .zeroDivisionError := by
  rfl

/-- C1 (amended): merging the example definition for node M1 in
metallic-roughness mode sets alphaMode MASK and doubleSided true, and
computes baseColorFactor [1,0,0,1], but the metallic-factor loop then
divides by a zero specular+diffuse channel sum, so the run aborts with
ZeroDivisionError and no roughnessFactor is ever produced. -/
theorem c1_example_amended :
    applyAlpha exampleDef [("name", .str "M1")] =
      .ok [("name", .str "M1"), ("alphaMode", .str "MASK"), ("doubleSided", .bool true)] ∧
    diffuseFactorPart false "M1" exampleDef [] false exampleState =
      .ok ([("baseColorFactor", .arr [.num 1, .num 0, .num 0, .num 1])],
        some (.arr [.num 1, .num 0, .num 0, .num 1]),
        ⟨[], [], false,
          [("M1", .obj [("AlphaTested", .bool true),
            ("Diffuse", .arr [.num 1, .num 0, .num 0, .num 1]),
            ("Specular", .arr [.num 0, .num 0, .num 0]), ("Shininess", .num (mkRat 1 2))])]⟩) ∧
    specularFactorPart false exampleDef
      [("baseColorFactor", .arr [.num 1, .num 0, .num 0, .num 1])]
      (some (.arr [.num 1, .num 0, .num 0, .num 1])) false = .error .zeroDivisionError ∧
    processNode false [] (.obj [("name", .str "M1")]) exampleState =
      .error .zeroDivisionError :=
  ⟨rfl, rfl, rfl, rfl⟩

/-- C2: processing a scene material node whose name has no definition
does not warn and continue; the handler's warning print evaluates
matnode.name on a dict, so the merger raises an uncaught AttributeError
and the whole run aborts. -/
theorem c2_missing_definition_crashes :
    processNode false [] (.obj [("name", .str "M2"), ("alphaMode", .str "OPAQUE")])
      ⟨[], [], false, []⟩ = .error .attributeError ∧
    mergeMaterials false [] [.obj [("name", .str "M2"), ("alphaMode", .str "OPAQUE")]]
      ⟨[], [], false, []⟩ = .error .attributeError :=
  ⟨rfl, rfl⟩

/-- C5: the claim is false as stated.  A matched definition whose
emissive color is exactly [0,0,0] (present, non-zero-length, 3
components) is not copied: any([0,0,0]) is false, so the finished output
node carries no emissiveFactor field. -/
theorem c5_zero_emissive_dropped :
    nodeField (processNode false [] (.obj [("name", .str "M5")])
      ⟨[], [], false, [("M5", zeroEmissiveDef)]⟩) "emissiveFactor" = some none := by
  rfl

/-- C7: texture deduplication breaks on a DDS diffuse path with no
PNG/JPEG companion on disk.  The first resolution of a.dds appends a
texture entry that has only an extensions block and no source field and
returns index 0; the second resolution of the same path reads
texture["source"] on that entry and raises an uncaught KeyError instead
of returning the shared index. -/
theorem c7_dds_dedup_keyerror :
    add_texture [] "a.dds" ⟨[], [], false, []⟩ =
      .ok (0, ⟨["a.dds"], [⟨none, some 0⟩], true, []⟩) ∧
    add_texture [] "a.dds" ⟨["a.dds"], [⟨none, some 0⟩], true, []⟩ = .error .keyError :=
  ⟨rfl, rfl⟩

/-- C4 (amended): whenever the compression level is 0 or the file's
extension (with its leading dot, as computed by splitext) is in the
no-compress list, process_file stores the original bytes unchanged,
records their exact length, and uses the normalized archive path with no
suffix appended. -/
theorem c4_store_uncompressed (lz4c : Int → List Nat → List Nat) (a : ArchArgs)
    (path : List Char) (contents : List Nat)
    (h : a.compress = 0 ∨ splitextExt path ∈ a.noCompress) :
    process_file lz4c a path contents =
      { archive_path := normalize_path a.pfx path, payload := contents,
        size := contents.length } := by
  have hneg : ¬(a.compress ≠ 0 ∧ splitextExt path ∉ a.noCompress) := by
    rcases h with h | h
    · exact fun hc => hc.1 h
    · exact fun hc => hc.2 h
  rw [process_file, if_neg hneg]

theorem c4_store_uncompressed_witness :
    process_file (fun _ b => b) ⟨0, [], []⟩ ['a'] [7] =
      { archive_path := normalize_path [] ['a'], payload := [7], size := 1 } :=
  c4_store_uncompressed (fun _ b => b) ⟨0, [], []⟩ ['a'] [7] (Or.inl rfl)

/-- C4: the claim is false in one particular: a stored file whose own
name ends in .lz4 yields an archive path that does carry an .lz4 suffix
even at compression level 0 (nothing was appended; the suffix belongs to
the file name). -/
theorem c4_lz4_named_file :
    (process_file (fun _ b => b) ⟨0, [], []⟩ "foo.lz4".data [1, 2]).archive_path =
      "foo.lz4".data ∧
    ".lz4".data.isSuffixOf
      (process_file (fun _ b => b) ⟨0, [], []⟩ "foo.lz4".data [1, 2]).archive_path = true :=
  ⟨rfl, rfl⟩

/-- C10: with compression enabled and an empty list of processed files,
the statistics step divides the original total by an emitted total of 0,
so the archiver ends with an uncaught ZeroDivisionError. -/
theorem c10_empty_inputs_zero_division (lz4c : Int → List Nat → List Nat) (a : ArchArgs)
    (fs : List Char → Option (List Nat)) (h : a.compress ≠ 0) :
    runArchiver lz4c a fs [] = .pyError .zeroDivisionError := by
  simp [runArchiver, archGo, archFinish, h]

theorem c10_empty_inputs_zero_division_witness :
    runArchiver (fun _ b => b) ⟨1, [], []⟩ (fun _ => some [1]) [] =
      .pyError .zeroDivisionError :=
  c10_empty_inputs_zero_division (fun _ b => b) ⟨1, [], []⟩ (fun _ => some [1]) (by decide)

/-- C8: the claim is false in the compression corner: with every input
readable (vacuously, none exist) and compression enabled, the run does
not exit with status 0 but dies with ZeroDivisionError in the
statistics step. -/
theorem c8_compress_empty_not_exit0 :
    runArchiver (fun _ b => b) ⟨1, [], []⟩ (fun _ => some [1]) [] =
      .pyError .zeroDivisionError ∧
    isSuccess (runArchiver (fun _ b => b) ⟨1, [], []⟩ (fun _ => some [1]) []) = false :=
  ⟨rfl, rfl⟩

theorem findUri_eq_none {p : String} :
    ∀ {l : List String} {i : Nat}, findUri p l i = none ↔ p ∉ l := by
  intro l
  induction l with
  | nil => simp [findUri]
  | cons u rest ih =>
    intro i
    by_cases h : u = p
    · simp [findUri, h]
    · have hbeq : (u == p) = false := by
        simpa using h
      simp [findUri, hbeq, ih, Ne.symm h]

theorem findUri_append_self {p : String} :
    ∀ {l : List String} (i : Nat), p ∉ l → findUri p (l ++ [p]) i = some (i + l.length) := by
  intro l
  induction l with
  | nil => simp [findUri]
  | cons u rest ih =>
    intro i hmem
    simp only [List.mem_cons, not_or] at hmem
    obtain ⟨hne, hrest⟩ := hmem
    have hu : (u == p) = false := by
      simpa using fun h : u = p => hne h.symm
    simp only [List.cons_append, findUri, hu, List.append_eq]
    rw [if_neg (by simp), ih (i + 1) hrest]
    congr 1
    simp only [List.length_cons]
    omega

/-- C6: add_image deduplicates by uri.  Registering a uri a second time
returns the same index as the first registration and leaves the image
list unchanged, and one registration preserves pairwise-distinct uris,
so the no-duplicate-uri invariant holds throughout a run that starts
from a duplicate-free list. -/
theorem c6_add_image_dedup (images : List String) (u : String) :
    (add_image (add_image images u).2 u).1 = (add_image images u).1 ∧
    (add_image (add_image images u).2 u).2 = (add_image images u).2 ∧
    (images.Nodup → (add_image images u).2.Nodup) := by
  cases h : findUri u images 0 with
  | some i =>
    refine ⟨?_, ?_, ?_⟩ <;> simp [add_image, h]
  | none =>
    have hmem : u ∉ images := findUri_eq_none.mp h
    have h2 : findUri u (images ++ [u]) 0 = some images.length := by
      simpa using findUri_append_self 0 hmem
    refine ⟨?_, ?_, ?_⟩
    · simp [add_image, h, h2]
    · simp [add_image, h, h2]
    · intro hnd
      simp only [add_image, h]
      rw [List.nodup_append]
      refine ⟨hnd, List.nodup_singleton u, ?_⟩
      intro x hx hxu
      rw [List.mem_singleton] at hxu
      exact hmem (hxu ▸ hx)

theorem c6_add_image_dedup_witness :
    (add_image (add_image ["x"] "y").2 "y").1 = (add_image ["x"] "y").1 ∧
    (add_image (add_image ["x"] "y").2 "y").2 = (add_image ["x"] "y").2 ∧
    (add_image ["x"] "y").2.Nodup :=
  ⟨(c6_add_image_dedup ["x"] "y").1, (c6_add_image_dedup ["x"] "y").2.1,
    (c6_add_image_dedup ["x"] "y").2.2 (by simp)⟩

/-- C5 (amended): a matched definition whose emissive color has exactly
3 components at least one of which is truthy (non-zero) is copied
verbatim by the emissive step as the node's emissiveFactor (first
conjunct, over all such definitions), and the copied color survives to
the finished output node (second conjunct, the full pipeline on a
concrete such definition); the all-zero color [0,0,0] is excluded
because any() of it is false. -/
theorem c5_emissive_copied_when_any_nonzero (mf node : List (String × JVal))
    (es : List JVal) (h1 : dictGet mf "Emittance" = some (.arr es))
    (h2 : es.length = 3) (h3 : es.any truthy = true) :
    applyEmissive (.obj mf) node = .ok (dictSet node "emissiveFactor" (.arr es)) ∧
    nodeField (processNode false [] (.obj [("name", .str "M5")])
        ⟨[], [], false, [("M5", smallEmissiveDef)]⟩) "emissiveFactor" =
      some (some (.arr [.num 0, .num 0, .num 5])) := by
  constructor
  · rw [applyEmissive]
    simp only [pyGet, h1, Option.getD_some, exceptBind_ok, pyAny, h3, if_true, pyLen, h2]
    rfl
  · rfl

theorem c5_emissive_copied_witness :
    applyEmissive (.obj [("Emittance", .arr [.num 0, .num 0, .num 5])]) [("name", .str "N")] =
      .ok (dictSet [("name", .str "N")] "emissiveFactor" (.arr [.num 0, .num 0, .num 5])) :=
  (c5_emissive_copied_when_any_nonzero [("Emittance", .arr [.num 0, .num 0, .num 5])]
    [("name", .str "N")] [.num 0, .num 0, .num 5] rfl rfl rfl).1

theorem archEntries_cons_some (lz4c : Int → List Nat → List Nat) (a : ArchArgs)
    (fs : List Char → Option (List Nat)) (p : List Char) (ct : List Nat)
    (rest : List (List Char)) (h : fs p = some ct) :
    archEntries lz4c a fs (p :: rest) =
      process_file lz4c a p ct :: archEntries lz4c a fs rest := by
  simp [archEntries, h]

theorem origTotalOf_cons_some (fs : List Char → Option (List Nat)) (p : List Char)
    (ct : List Nat) (rest : List (List Char)) (h : fs p = some ct) :
    origTotalOf fs (p :: rest) = ct.length + origTotalOf fs rest := by
  simp [origTotalOf, h]

theorem emitTotalOf_cons_some (lz4c : Int → List Nat → List Nat) (a : ArchArgs)
    (fs : List Char → Option (List Nat)) (p : List Char) (ct : List Nat)
    (rest : List (List Char)) (h : fs p = some ct) :
    emitTotalOf lz4c a fs (p :: rest) =
      (process_file lz4c a p ct).size + emitTotalOf lz4c a fs rest := by
  simp [emitTotalOf, archEntries, h]

theorem archGo_readable (lz4c : Int → List Nat → List Nat) (a : ArchArgs)
    (fs : List Char → Option (List Nat)) :
    ∀ (inputs : List (List Char)), (∀ q ∈ inputs, (fs q).isSome) →
    ∀ es o c, archGo lz4c a fs inputs es o c =
      archFinish a (es ++ archEntries lz4c a fs inputs)
        (o + origTotalOf fs inputs) (c + emitTotalOf lz4c a fs inputs) := by
  intro inputs
  induction inputs with
  | nil =>
    intro _ es o c
    simp [archGo, archEntries, origTotalOf, emitTotalOf]
  | cons p rest ih =>
    intro h es o c
    obtain ⟨ct, hct⟩ := Option.isSome_iff_exists.mp (h p (by simp))
    have hrest : ∀ q ∈ rest, (fs q).isSome := fun q hq => h q (by simp [hq])
    simp only [archGo, hct]
    rw [ih hrest, archEntries_cons_some lz4c a fs p ct rest hct,
      origTotalOf_cons_some fs p ct rest hct, emitTotalOf_cons_some lz4c a fs p ct rest hct]
    congr 1
    · simp
    · omega
    · omega

theorem archGo_unreadable (lz4c : Int → List Nat → List Nat) (a : ArchArgs)
    (fs : List Char → Option (List Nat)) :
    ∀ (pre : List (List Char)) (p : List Char) (post : List (List Char)) es o c,
    (∀ q ∈ pre, (fs q).isSome) → fs p = none →
    archGo lz4c a fs (pre ++ p :: post) es o c =
      .exited 1 (es ++ archEntries lz4c a fs pre) := by
  intro pre
  induction pre with
  | nil =>
    intro p post es o c _ hp
    simp [archGo, hp, archEntries]
  | cons q rest ih =>
    intro p post es o c h hp
    obtain ⟨ct, hct⟩ := Option.isSome_iff_exists.mp (h q (by simp))
    have hrest : ∀ r ∈ rest, (fs r).isSome := fun r hr => h r (by simp [hr])
    simp only [List.cons_append, archGo, hct, List.append_eq]
    rw [ih p post _ _ _ hrest hp,
      archEntries_cons_some lz4c a fs q ct rest hct]
    simp

/-- C8 (amended): the archiver exits with status 1 at the first
unreadable input, writing only the entries of the files before it and
never touching the rest; when every input is readable it terminates
normally (exit status 0) with all entries and the two size totals,
provided the statistics step does not divide by zero, i.e. compression
is off or the emitted total is nonzero (with compression on and nothing
emitted the run instead dies with ZeroDivisionError, see the
counterexample and C10). -/
theorem c8_exit_semantics_amended (lz4c : Int → List Nat → List Nat) (a : ArchArgs)
    (fs : List Char → Option (List Nat)) :
    (∀ (pre : List (List Char)) (p : List Char) (post : List (List Char)),
      (∀ q ∈ pre, (fs q).isSome) → fs p = none →
      runArchiver lz4c a fs (pre ++ p :: post) = .exited 1 (archEntries lz4c a fs pre)) ∧
    (∀ inputs : List (List Char), (∀ q ∈ inputs, (fs q).isSome) →
      (a.compress = 0 ∨ emitTotalOf lz4c a fs inputs ≠ 0) →
      runArchiver lz4c a fs inputs =
        .success (archEntries lz4c a fs inputs) (origTotalOf fs inputs)
          (emitTotalOf lz4c a fs inputs)) := by
  constructor
  · intro pre p post hpre hp
    rw [runArchiver, archGo_unreadable lz4c a fs pre p post [] 0 0 hpre hp]
    simp
  · intro inputs hread hnz
    rw [runArchiver, archGo_readable lz4c a fs inputs hread [] 0 0]
    simp only [List.nil_append, Nat.zero_add]
    rcases hnz with h | h
    · simp [archFinish, h]
    · rw [archFinish]
      by_cases hc : a.compress ≠ 0
      · rw [if_pos hc, if_neg h]
      · rw [if_neg hc]

theorem c8_exit_semantics_witness :
    runArchiver (fun _ b => b) ⟨0, [], []⟩
      (fun p => if p = ['u'] then none else some [9]) [['a'], ['u'], ['b']] =
      .exited 1 (archEntries (fun _ b => b) ⟨0, [], []⟩
        (fun p => if p = ['u'] then none else some [9]) [['a']]) ∧
    runArchiver (fun _ b => b) ⟨0, [], []⟩
      (fun p => if p = ['u'] then none else some [9]) [['a']] =
      .success (archEntries (fun _ b => b) ⟨0, [], []⟩
          (fun p => if p = ['u'] then none else some [9]) [['a']])
        (origTotalOf (fun p => if p = ['u'] then none else some [9]) [['a']])
        (emitTotalOf (fun _ b => b) ⟨0, [], []⟩
          (fun p => if p = ['u'] then none else some [9]) [['a']]) :=
  ⟨(c8_exit_semantics_amended _ _ _).1 [['a']] ['u'] [['b']] (by decide) (by decide),
    (c8_exit_semantics_amended _ _ _).2 [['a']] (by decide) (Or.inl rfl)⟩

theorem exceptPure {ε α : Type} (x : α) : (pure x : Except ε α) = .ok x := rfl

theorem applyAlpha_ok (mf node : List (String × JVal)) :
    ∃ n1, applyAlpha (.obj mf) node = .ok n1 := by
  rw [applyAlpha]
  simp only [pyGet, exceptBind_ok]
  split
  · exact ⟨_, rfl⟩
  · split
    · exact ⟨_, rfl⟩
    · exact ⟨_, rfl⟩

theorem applyEmissive_ok (mf node : List (String × JVal))
    (hem : dictGet mf "Emittance" = none ∨ ∃ es, dictGet mf "Emittance" = some (.arr es)) :
    ∃ n2, applyEmissive (.obj mf) node = .ok n2 := by
  rw [applyEmissive]
  rcases hem with h | ⟨es, h⟩
  · simp [pyGet, h, pyAny, exceptBind_ok]
  · simp only [pyGet, h, Option.getD_some, exceptBind_ok, pyAny, pyLen]
    split
    · split
      · exact ⟨_, rfl⟩
      · exact ⟨_, rfl⟩
    · exact ⟨_, rfl⟩

theorem textureStage_skip (sg : Bool) (fs : List String) (mf : List (String × JVal))
    (node block : List (String × JVal)) (st : MState)
    (htex : dictGet mf "Textures" = none ∨
      ∃ tf, dictGet mf "Textures" = some (.obj tf) ∧ dictGet tf "Emittance" = none ∧
        dictGet tf "Bumpmap" = none ∧ dictGet tf "Diffuse" = none ∧
        dictGet tf "Specular" = none) :
    textureStage sg fs (.obj mf) node block st = .ok (node, block, false, false, st) := by
  rw [textureStage]
  rcases htex with h | ⟨tf, h, h1, h2, h3, h4⟩
  · simp [pyGet, h, truthy, exceptBind_ok]
  · simp only [pyGet, h, Option.getD_some, exceptBind_ok]
    split
    · simp [pyGet, h1, h2, h3, h4, truthy, exceptBind_ok, exceptPure]
    · rfl

theorem diffuseFactorPart_missing (sg : Bool) (name : String) (mf : List (String × JVal))
    (block : List (String × JVal)) (st : MState) (hdiff : dictGet mf "Diffuse" = none) :
    diffuseFactorPart sg name (.obj mf) block false st = .error .typeError := by
  rw [diffuseFactorPart]
  simp [pyGet, hdiff, pyLen, exceptBind_ok, exceptBind_err]

theorem processMatched_missing_diffuse (sg : Bool) (fs : List String) (name : String)
    (mf : List (String × JVal)) (st : MState)
    (hdiff : dictGet mf "Diffuse" = none)
    (hem : dictGet mf "Emittance" = none ∨ ∃ es, dictGet mf "Emittance" = some (.arr es))
    (htex : dictGet mf "Textures" = none ∨
      ∃ tf, dictGet mf "Textures" = some (.obj tf) ∧ dictGet tf "Emittance" = none ∧
        dictGet tf "Bumpmap" = none ∧ dictGet tf "Diffuse" = none ∧
        dictGet tf "Specular" = none) :
    processMatched sg fs name (.obj mf) st = .error .typeError := by
  obtain ⟨n1, h1⟩ := applyAlpha_ok mf [("name", .str name)]
  obtain ⟨n2, h2⟩ := applyEmissive_ok mf n1 hem
  rw [processMatched]
  rw [h1]
  simp only [exceptBind_ok, h2]
  rw [textureStage_skip sg fs mf (dictSet n2 (blockKey sg) (wrapBlock sg [])) [] st htex]
  simp only [exceptBind_ok]
  rw [diffuseFactorPart_missing sg name mf [] st hdiff]
  rfl

theorem mergeMaterials_cons_error (sg : Bool) (fs : List String) (n : JVal) (ns : List JVal)
    (st : MState) (e : PyErr) (hn : processNode sg fs n st = .error e) :
    mergeMaterials sg fs (n :: ns) st = .error e := by
  simp only [mergeMaterials]
  rw [hn]
  rfl

theorem mergeMaterials_cons_ok (sg : Bool) (fs : List String) (n : JVal) (ns : List JVal)
    (st : MState) (n2 : JVal) (st3 : MState) (hn : processNode sg fs n st = .ok (n2, st3)) :
    mergeMaterials sg fs (n :: ns) st =
      mergeMaterials sg fs ns st3 >>= fun r => .ok (n2 :: r.1, r.2) := by
  simp only [mergeMaterials]
  rw [hn, exceptBind_ok]

theorem mergeMaterials_error_after (sg : Bool) (fs : List String) :
    ∀ (ns1 : List JVal) (st : MState) (out : List JVal) (st2 : MState),
    mergeMaterials sg fs ns1 st = .ok (out, st2) →
    ∀ (n : JVal) (ns2 : List JVal) (e : PyErr), processNode sg fs n st2 = .error e →
    mergeMaterials sg fs (ns1 ++ n :: ns2) st = .error e := by
  intro ns1
  induction ns1 with
  | nil =>
    intro st out st2 h n ns2 e hn
    rw [show mergeMaterials sg fs [] st = .ok ([], st) from rfl] at h
    injection h with h2
    rw [Prod.mk.injEq] at h2
    obtain ⟨hout, hst⟩ := h2
    subst hst
    rw [List.nil_append]
    exact mergeMaterials_cons_error sg fs n ns2 st e hn
  | cons x xs ih =>
    intro st out st2 h n ns2 e hn
    cases hx : processNode sg fs x st with
    | error e2 =>
      rw [mergeMaterials_cons_error sg fs x xs st e2 hx] at h
      exact absurd h (by simp)
    | ok r =>
      obtain ⟨n2, st3⟩ := r
      rw [mergeMaterials_cons_ok sg fs x xs st n2 st3 hx] at h
      cases hm : mergeMaterials sg fs xs st3 with
      | error e3 =>
        rw [hm] at h
        exact absurd h (by simp [exceptBind_err])
      | ok r2 =>
        obtain ⟨l2, st4⟩ := r2
        rw [hm, exceptBind_ok] at h
        injection h with h2
        rw [Prod.mk.injEq] at h2
        obtain ⟨hout, hst⟩ := h2
        subst hst
        rw [List.cons_append,
          mergeMaterials_cons_ok sg fs x (xs ++ n :: ns2) st n2 st3 hx,
          ih st3 l2 st4 hm n ns2 e hn]
        rfl

/-- C9: for a matched scene node whose definition supplies no diffuse
texture, processing demands a Diffuse field: when the definition has no
Diffuse key, matdef.get returns None and len(None) raises an uncaught
TypeError in both shading modes, aborting the whole merger run after any
prefix of nodes that processed successfully; there is no warn-and-
continue path for a missing diffuse color. -/
theorem c9_missing_diffuse_typeerror (sg : Bool) (fs : List String)
    (ns1 ns2 : List JVal) (nf mf : List (String × JVal)) (name : String)
    (st : MState) (out : List JVal) (st2 : MState)
    (hname : dictGet nf "name" = some (.str name))
    (hpre : mergeMaterials sg fs ns1 st = .ok (out, st2))
    (hdef : dictGet st2.defs name = some (.obj mf))
    (hdiff : dictGet mf "Diffuse" = none)
    (hem : dictGet mf "Emittance" = none ∨ ∃ es, dictGet mf "Emittance" = some (.arr es))
    (htex : dictGet mf "Textures" = none ∨
      ∃ tf, dictGet mf "Textures" = some (.obj tf) ∧ dictGet tf "Emittance" = none ∧
        dictGet tf "Bumpmap" = none ∧ dictGet tf "Diffuse" = none ∧
        dictGet tf "Specular" = none) :
    processNode sg fs (.obj nf) st2 = .error .typeError ∧
    mergeMaterials sg fs (ns1 ++ .obj nf :: ns2) st = .error .typeError := by
  have hnode : processNode sg fs (.obj nf) st2 = .error .typeError := by
    rw [processNode]
    simp only [hname, hdef]
    exact processMatched_missing_diffuse sg fs name mf st2 hdiff hem htex
  exact ⟨hnode, mergeMaterials_error_after sg fs ns1 st out st2 hpre _ ns2 _ hnode⟩

theorem c9_missing_diffuse_witness :
    processNode false [] (.obj [("name", .str "M9")]) ⟨[], [], false, [("M9", .obj [])]⟩ =
      .error .typeError ∧
    processNode true [] (.obj [("name", .str "M9")]) ⟨[], [], false, [("M9", .obj [])]⟩ =
      .error .typeError ∧
    mergeMaterials false [] [.obj [("name", .str "M9")]] ⟨[], [], false, [("M9", .obj [])]⟩ =
      .error .typeError :=
  ⟨(c9_missing_diffuse_typeerror false [] [] [] [("name", .str "M9")] [] "M9"
      ⟨[], [], false, [("M9", .obj [])]⟩ [] ⟨[], [], false, [("M9", .obj [])]⟩
      rfl rfl rfl rfl (Or.inl rfl) (Or.inl rfl)).1,
    (c9_missing_diffuse_typeerror true [] [] [] [("name", .str "M9")] [] "M9"
      ⟨[], [], false, [("M9", .obj [])]⟩ [] ⟨[], [], false, [("M9", .obj [])]⟩
      rfl rfl rfl rfl (Or.inl rfl) (Or.inl rfl)).1,
    (c9_missing_diffuse_typeerror false [] [] [] [("name", .str "M9")] [] "M9"
      ⟨[], [], false, [("M9", .obj [])]⟩ [] ⟨[], [], false, [("M9", .obj [])]⟩
      rfl rfl rfl rfl (Or.inl rfl) (Or.inl rfl)).2⟩

theorem splitSep_ne_nil : ∀ (p : List Char), splitSep p ≠ []
  | [] => by simp [splitSep]
  | c :: cs => by
    rw [splitSep]
    split
    · simp
    · split <;> simp

theorem splitSep_no_slash : ∀ (p : List Char), ∀ g ∈ splitSep p, '/' ∉ g := by
  intro p
  induction p with
  | nil =>
    intro g hg
    rw [splitSep] at hg
    simp only [List.mem_singleton] at hg
    simp [hg]
  | cons c cs ih =>
    intro g hg
    rw [splitSep] at hg
    by_cases hc : c = '/'
    · rw [if_pos hc] at hg
      rcases List.mem_cons.mp hg with h | h
      · simp [h]
      · exact ih g h
    · rw [if_neg hc] at hg
      cases hsp : splitSep cs with
      | nil => exact absurd hsp (splitSep_ne_nil cs)
      | cons g1 gs =>
        rw [hsp] at hg
        rcases List.mem_cons.mp hg with h | h
        · subst h
          intro hmem
          rcases List.mem_cons.mp hmem with h2 | h2
          · exact hc h2.symm
          · exact ih g1 (hsp ▸ List.mem_cons_self g1 gs) h2
        · exact ih g (hsp ▸ List.mem_cons_of_mem g1 h)

theorem splitSep_chars : ∀ (p : List Char), ∀ g ∈ splitSep p, ∀ c ∈ g, c ∈ p := by
  intro p
  induction p with
  | nil =>
    intro g hg c hc
    rw [splitSep] at hg
    simp only [List.mem_singleton] at hg
    subst hg
    simp at hc
  | cons x cs ih =>
    intro g hg c hc
    rw [splitSep] at hg
    by_cases hx : x = '/'
    · rw [if_pos hx] at hg
      rcases List.mem_cons.mp hg with h | h
      · subst h; simp at hc
      · exact List.mem_cons_of_mem x (ih g h c hc)
    · rw [if_neg hx] at hg
      cases hsp : splitSep cs with
      | nil => exact absurd hsp (splitSep_ne_nil cs)
      | cons g1 gs =>
        rw [hsp] at hg
        rcases List.mem_cons.mp hg with h | h
        · subst h
          rcases List.mem_cons.mp hc with h2 | h2
          · simp [h2]
          · exact List.mem_cons_of_mem x
              (ih g1 (hsp ▸ List.mem_cons_self g1 gs) c h2)
        · exact List.mem_cons_of_mem x (ih g (hsp ▸ List.mem_cons_of_mem g1 h) c hc)

theorem splitSep_slash_cons (t : List Char) : splitSep ('/' :: t) = [] :: splitSep t := by
  rw [splitSep, if_pos rfl]

theorem splitSep_append_slash : ∀ (g t : List Char), '/' ∉ g →
    splitSep (g ++ '/' :: t) = g :: splitSep t := by
  intro g
  induction g with
  | nil =>
    intro t _
    simp [splitSep_slash_cons]
  | cons c g2 ih =>
    intro t hg
    have hc : c ≠ '/' := fun h => hg (h ▸ List.mem_cons_self c g2)
    have hg2 : '/' ∉ g2 := fun h => hg (List.mem_cons_of_mem c h)
    rw [List.cons_append, splitSep, if_neg hc, ih t hg2]

theorem splitSep_no_slash_self : ∀ (g : List Char), '/' ∉ g → splitSep g = [g] := by
  intro g
  induction g with
  | nil => intro _; rfl
  | cons c g2 ih =>
    intro hg
    have hc : c ≠ '/' := fun h => hg (h ▸ List.mem_cons_self c g2)
    have hg2 : '/' ∉ g2 := fun h => hg (List.mem_cons_of_mem c h)
    rw [splitSep, if_neg hc, ih hg2]

theorem joinSep_splitSep : ∀ (cs : List (List Char)), cs ≠ [] →
    (∀ g ∈ cs, '/' ∉ g) → splitSep (joinSep cs) = cs := by
  intro cs
  induction cs with
  | nil => intro h; exact absurd rfl h
  | cons g gs ih =>
    intro _ hns
    cases gs with
    | nil =>
      rw [joinSep]
      exact splitSep_no_slash_self g (hns g (List.mem_cons_self g []))
    | cons g2 gs2 =>
      rw [show joinSep (g :: g2 :: gs2) = g ++ '/' :: joinSep (g2 :: gs2) from rfl]
      rw [splitSep_append_slash g _ (hns g (List.mem_cons_self g _))]
      rw [ih (by simp) (fun x hx => hns x (List.mem_cons_of_mem g hx))]

theorem joinSep_chars : ∀ (cs : List (List Char)), ∀ c ∈ joinSep cs,
    c = '/' ∨ ∃ g ∈ cs, c ∈ g := by
  intro cs
  induction cs with
  | nil => intro c hc; simp [joinSep] at hc
  | cons g gs ih =>
    intro c hc
    cases gs with
    | nil =>
      rw [joinSep] at hc
      exact Or.inr ⟨g, List.mem_cons_self g [], hc⟩
    | cons g2 gs2 =>
      rw [show joinSep (g :: g2 :: gs2) = g ++ '/' :: joinSep (g2 :: gs2) from rfl] at hc
      rcases List.mem_append.mp hc with h | h
      · exact Or.inr ⟨g, List.mem_cons_self g _, h⟩
      · rcases List.mem_cons.mp h with h2 | h2
        · exact Or.inl h2
        · rcases ih c h2 with h3 | ⟨g3, hg3, hc3⟩
          · exact Or.inl h3
          · exact Or.inr ⟨g3, List.mem_cons_of_mem g hg3, hc3⟩

theorem joinSep_ne_nil (g : List Char) (gs : List (List Char)) (hg : g ≠ []) :
    joinSep (g :: gs) ≠ [] := by
  cases gs with
  | nil => rw [joinSep]; exact hg
  | cons g2 gs2 =>
    rw [show joinSep (g :: g2 :: gs2) = g ++ '/' :: joinSep (g2 :: gs2) from rfl]
    simp [hg]

theorem joinSep_take_one (g : List Char) (gs : List (List Char)) (hg : g ≠ []) :
    (joinSep (g :: gs)).take 1 = g.take 1 := by
  cases gs with
  | nil => rw [joinSep]
  | cons g2 gs2 =>
    rw [show joinSep (g :: g2 :: gs2) = g ++ '/' :: joinSep (g2 :: gs2) from rfl]
    cases g with
    | nil => exact absurd rfl hg
    | cons c g3 => simp

theorem mem_of_getLast? {α : Type} : ∀ {l : List α} {a : α}, l.getLast? = some a → a ∈ l := by
  intro l
  induction l with
  | nil => intro a h; simp [List.getLast?] at h
  | cons x xs ih =>
    intro a h
    cases xs with
    | nil =>
      simp [List.getLast?] at h
      simp [h]
    | cons y ys =>
      rw [List.getLast?_cons_cons] at h
      exact List.mem_cons_of_mem x (ih h)

theorem ddpre_nil : DDPre [] := ⟨0, [], rfl, by simp⟩

theorem ddpre_append_ne (cs : List (List Char)) (g : List Char) (h : DDPre cs)
    (hg : g ≠ dd) : DDPre (cs ++ [g]) := by
  obtain ⟨m, rest, rfl, hrest⟩ := h
  refine ⟨m, rest ++ [g], by simp, ?_⟩
  intro hm
  rcases List.mem_append.mp hm with h1 | h1
  · exact hrest h1
  · rw [List.mem_singleton] at h1
    exact hg h1.symm

theorem getLast?_append_right {α : Type} : ∀ (l1 l2 : List α), l2 ≠ [] →
    (l1 ++ l2).getLast? = l2.getLast? := by
  intro l1
  induction l1 with
  | nil => intro l2 _; rfl
  | cons x xs ih =>
    intro l2 h
    rw [List.cons_append]
    cases hx : xs ++ l2 with
    | nil =>
      rcases List.append_eq_nil.mp hx with ⟨_, h2⟩
      exact absurd h2 h
    | cons y ys =>
      rw [List.getLast?_cons_cons, ← hx]
      exact ih l2 h

theorem ddpre_rest_nil_of_getLast (m : Nat) (rest : List (List Char)) (hrest : dd ∉ rest)
    (hlast : (List.replicate m dd ++ rest).getLast? = some dd) : rest = [] := by
  cases rest with
  | nil => rfl
  | cons r rs =>
    rw [getLast?_append_right _ _ (by simp : (r :: rs) ≠ [])] at hlast
    exact absurd (mem_of_getLast? hlast) hrest

theorem ddpre_append_dd (cs : List (List Char)) (h : DDPre cs)
    (hcase : cs = [] ∨ cs.getLast? = some dd) : DDPre (cs ++ [dd]) := by
  obtain ⟨m, rest, heq, hrest⟩ := h
  rcases hcase with h1 | h1
  · subst h1
    exact ⟨1, [], by simp [List.replicate], by simp⟩
  · subst heq
    have hr : rest = [] := ddpre_rest_nil_of_getLast m rest hrest h1
    subst hr
    exact ⟨m + 1, [], by simp [List.replicate_succ'], by simp⟩

theorem ddpre_dropLast (cs : List (List Char)) (h : DDPre cs) : DDPre cs.dropLast := by
  obtain ⟨m, rest, rfl, hrest⟩ := h
  cases rest with
  | nil =>
    cases m with
    | zero => simpa using ddpre_nil
    | succ m2 =>
      rw [List.append_nil, List.replicate_succ', List.dropLast_concat]
      exact ⟨m2, [], by simp, by simp⟩
  | cons r rs =>
    rw [List.dropLast_append_of_ne_nil _ (by simp : (r :: rs) ≠ [])]
    exact ⟨m, (r :: rs).dropLast, rfl, fun hm => hrest (List.dropLast_subset _ hm)⟩

theorem collapseStep_clean (isAbs : Bool) (acc : List (List Char)) (comp : List Char)
    (h : CleanComps isAbs acc) : CleanComps isAbs (collapseStep isAbs acc comp) := by
  obtain ⟨hcc, habs, hrel⟩ := h
  rw [collapseStep]
  split
  · exact ⟨hcc, habs, hrel⟩
  · rename_i h1
    push_neg at h1
    split
    · rename_i h2
      refine ⟨?_, ?_, ?_⟩
      · intro g hg
        rcases List.mem_append.mp hg with h3 | h3
        · exact hcc g h3
        · rw [List.mem_singleton] at h3
          subst h3
          exact ⟨h1.1, h1.2⟩
      · intro hA
        subst hA
        intro hm
        rcases List.mem_append.mp hm with h3 | h3
        · exact habs rfl h3
        · rw [List.mem_singleton] at h3
          rcases h2 with h4 | h4 | h4
          · exact h4 h3.symm
          · exact absurd h4.1 (by decide)
          · exact habs rfl (mem_of_getLast? h4.2)
      · intro hA
        subst hA
        by_cases hc : comp = dd
        · subst hc
          apply ddpre_append_dd acc (hrel rfl)
          rcases h2 with h4 | h4 | h4
          · exact absurd rfl h4
          · exact Or.inl h4.2
          · exact Or.inr h4.2
        · exact ddpre_append_ne acc comp (hrel rfl) hc
    · split
      · refine ⟨?_, ?_, ?_⟩
        · exact fun g hg => hcc g (List.dropLast_subset acc hg)
        · intro hA hm
          exact habs hA (List.dropLast_subset acc hm)
        · intro hA
          exact ddpre_dropLast acc (hrel hA)
      · exact ⟨hcc, habs, hrel⟩

theorem foldl_collapseStep_clean (isAbs : Bool) :
    ∀ (cs acc : List (List Char)), CleanComps isAbs acc →
    CleanComps isAbs (List.foldl (collapseStep isAbs) acc cs) := by
  intro cs
  induction cs with
  | nil => intro acc h; exact h
  | cons comp rest ih =>
    intro acc h
    exact ih _ (collapseStep_clean isAbs acc comp h)

theorem cleanComps_nil (isAbs : Bool) : CleanComps isAbs [] :=
  ⟨by simp, fun _ => by simp, fun _ => ddpre_nil⟩

theorem collapse_clean (isAbs : Bool) (cs : List (List Char)) :
    CleanComps isAbs (collapse isAbs cs) :=
  foldl_collapseStep_clean isAbs cs [] (cleanComps_nil isAbs)

theorem foldl_step_no_dd (isAbs : Bool) :
    ∀ (cs : List (List Char)), (∀ g ∈ cs, CleanComp g ∧ g ≠ dd) →
    ∀ acc, List.foldl (collapseStep isAbs) acc cs = acc ++ cs := by
  intro cs
  induction cs with
  | nil => intro _ acc; simp
  | cons comp rest ih =>
    intro h acc
    have hcomp := h comp (List.mem_cons_self comp rest)
    have hstep : collapseStep isAbs acc comp = acc ++ [comp] := by
      rw [collapseStep, if_neg (not_or.mpr ⟨hcomp.1.1, hcomp.1.2⟩), if_pos (Or.inl hcomp.2)]
    rw [List.foldl_cons, hstep, ih (fun g hg => h g (List.mem_cons_of_mem comp hg)) (acc ++ [comp])]
    simp

theorem foldl_step_dd_run :
    ∀ (m : Nat) (rest : List (List Char)), (∀ g ∈ rest, CleanComp g ∧ g ≠ dd) →
    ∀ acc, (acc = [] ∨ acc.getLast? = some dd) →
    List.foldl (collapseStep false) acc (List.replicate m dd ++ rest) =
      acc ++ List.replicate m dd ++ rest := by
  intro m
  induction m with
  | zero =>
    intro rest h acc _
    simpa using foldl_step_no_dd false rest h acc
  | succ m2 ih =>
    intro rest h acc hacc
    have hstep : collapseStep false acc dd = acc ++ [dd] := by
      rw [collapseStep, if_neg (by decide), if_pos ?_]
      rcases hacc with h1 | h1
      · exact Or.inr (Or.inl ⟨rfl, h1⟩)
      · refine Or.inr (Or.inr ⟨?_, h1⟩)
        intro h2
        rw [h2] at h1
        simp [List.getLast?] at h1
    rw [List.replicate_succ, List.cons_append, List.foldl_cons, hstep,
      ih rest h (acc ++ [dd]) (Or.inr (by simp))]
    simp

theorem collapse_fix (isAbs : Bool) (cs : List (List Char))
    (h : CleanComps isAbs cs) : collapse isAbs cs = cs := by
  obtain ⟨hcc, habs, hrel⟩ := h
  cases isAbs with
  | true =>
    have hdd := habs rfl
    have := foldl_step_no_dd true cs
      (fun g hg => ⟨hcc g hg, fun he => hdd (he ▸ hg)⟩) []
    simpa [collapse] using this
  | false =>
    obtain ⟨m, rest, heq, hrest⟩ := hrel rfl
    subst heq
    have hr : ∀ g ∈ rest, CleanComp g ∧ g ≠ dd := fun g hg =>
      ⟨hcc g (List.mem_append_right _ hg), fun he => hrest (he ▸ hg)⟩
    have := foldl_step_dd_run m rest hr [] (Or.inl rfl)
    simpa [collapse] using this

theorem collapseStep_nil_comp (isAbs : Bool) (acc : List (List Char)) :
    collapseStep isAbs acc [] = acc := by
  rw [collapseStep, if_pos (Or.inl rfl)]

theorem foldl_step_skip_empties (isAbs : Bool) (k : Nat) (cs acc : List (List Char)) :
    List.foldl (collapseStep isAbs) acc (List.replicate k ([] : List Char) ++ cs) =
      List.foldl (collapseStep isAbs) acc cs := by
  induction k with
  | zero => simp
  | succ k2 ih =>
    rw [List.replicate_succ, List.cons_append, List.foldl_cons, collapseStep_nil_comp]
    exact ih

theorem collapseStep_mem (isAbs : Bool) (acc : List (List Char)) (comp g : List Char)
    (hg : g ∈ collapseStep isAbs acc comp) : g ∈ acc ∨ g = comp := by
  rw [collapseStep] at hg
  split at hg
  · exact Or.inl hg
  · split at hg
    · rcases List.mem_append.mp hg with h | h
      · exact Or.inl h
      · exact Or.inr (List.mem_singleton.mp h)
    · split at hg
      · exact Or.inl (List.dropLast_subset _ hg)
      · exact Or.inl hg

theorem foldl_step_mem (isAbs : Bool) :
    ∀ (cs acc : List (List Char)) (g : List Char),
    g ∈ List.foldl (collapseStep isAbs) acc cs → g ∈ acc ∨ g ∈ cs := by
  intro cs
  induction cs with
  | nil => intro acc g h; exact Or.inl h
  | cons comp rest ih =>
    intro acc g h
    rw [List.foldl_cons] at h
    rcases ih _ g h with h2 | h2
    · rcases collapseStep_mem isAbs acc comp g h2 with h3 | h3
      · exact Or.inl h3
      · exact Or.inr (h3 ▸ List.mem_cons_self comp rest)
    · exact Or.inr (List.mem_cons_of_mem comp h2)

theorem collapse_mem (isAbs : Bool) (cs : List (List Char)) (g : List Char)
    (hg : g ∈ collapse isAbs cs) : g ∈ cs := by
  rcases foldl_step_mem isAbs cs [] g hg with h | h
  · simp at h
  · exact h

theorem splitSep_replicate_slash : ∀ (k : Nat) (t : List Char),
    splitSep (List.replicate k '/' ++ t) =
      List.replicate k ([] : List Char) ++ splitSep t := by
  intro k
  induction k with
  | zero => intro t; simp
  | succ k2 ih =>
    intro t
    rw [List.replicate_succ, List.cons_append, splitSep_slash_cons, ih,
      List.replicate_succ, List.cons_append]

theorem slashesOf_le_two (p : List Char) : slashesOf p ≤ 2 := by
  rw [slashesOf]
  split
  · split <;> omega
  · omega

theorem slashesOf_prepend (k : Nat) (hk : k ≤ 2) (t : List Char)
    (ht : t.take 1 ≠ ['/']) : slashesOf (List.replicate k '/' ++ t) = k := by
  interval_cases k
  · rw [show List.replicate 0 '/' ++ t = t from by simp, slashesOf, if_neg ht]
  · rw [show List.replicate 1 '/' ++ t = '/' :: t from rfl, slashesOf]
    rw [if_pos (by simp), if_neg ?_]
    intro hand
    have h2 := hand.1
    rw [show (2 : Nat) = 1 + 1 from rfl, List.take_succ_cons] at h2
    injection h2 with _ h3
    exact ht h3
  · rw [show List.replicate 2 '/' ++ t = '/' :: '/' :: t from rfl, slashesOf]
    rw [if_pos (by simp), if_pos ?_]
    refine ⟨by simp, ?_⟩
    intro h3
    injection h3 with _ h4
    injection h4 with _ h5
    exact ht h5

theorem normpath_reconstruct (k : Nat) (hk : k ≤ 2) (cs : List (List Char))
    (hclean : CleanComps (k != 0) cs) (hnosl : ∀ g ∈ cs, '/' ∉ g)
    (hr : List.replicate k '/' ++ joinSep cs ≠ []) :
    normpath (List.replicate k '/' ++ joinSep cs) =
      List.replicate k '/' ++ joinSep cs := by
  cases cs with
  | nil =>
    rw [show joinSep [] = [] from rfl] at hr ⊢
    rw [List.append_nil] at hr ⊢
    rw [normpath, if_neg hr]
    have hsl : slashesOf (List.replicate k '/') = k := by
      have := slashesOf_prepend k hk [] (by simp)
      simpa using this
    rw [hsl]
    have hsplit : splitSep (List.replicate k '/') =
        List.replicate k ([] : List Char) ++ [[]] := by
      have := splitSep_replicate_slash k []
      simpa [show splitSep [] = [[]] from rfl] using this
    rw [hsplit]
    have hcol : collapse (k != 0) (List.replicate k ([] : List Char) ++ [[]]) = [] := by
      rw [collapse, foldl_step_skip_empties]
      simp [collapseStep_nil_comp]
    rw [hcol]
    rw [show joinSep [] = [] from rfl, List.append_nil, if_neg hr]
  | cons g gs =>
    have hgne : g ≠ [] := (hclean.1 g (List.mem_cons_self g gs)).1
    have htake : (joinSep (g :: gs)).take 1 ≠ ['/'] := by
      rw [joinSep_take_one g gs hgne]
      cases g with
      | nil => exact absurd rfl hgne
      | cons c g2 =>
        have hc : c ≠ '/' :=
          fun h => hnosl (c :: g2) (List.mem_cons_self _ _) (h ▸ List.mem_cons_self c g2)
        simp [hc]
    rw [normpath, if_neg hr]
    rw [slashesOf_prepend k hk _ htake]
    rw [splitSep_replicate_slash k _]
    rw [joinSep_splitSep (g :: gs) (by simp) hnosl]
    rw [collapse, foldl_step_skip_empties]
    rw [show List.foldl (collapseStep (k != 0)) [] (g :: gs) = collapse (k != 0) (g :: gs)
      from rfl]
    rw [collapse_fix _ _ hclean]
    rw [if_neg hr]

theorem normpath_idem (p : List Char) : normpath (normpath p) = normpath p := by
  by_cases hp : p = []
  · subst hp
    decide
  · have hbody : normpath p =
        if List.replicate (slashesOf p) '/' ++
            joinSep (collapse (slashesOf p != 0) (splitSep p)) = [] then ['.']
        else List.replicate (slashesOf p) '/' ++
          joinSep (collapse (slashesOf p != 0) (splitSep p)) := by
      rw [normpath, if_neg hp]
    by_cases hr : List.replicate (slashesOf p) '/' ++
        joinSep (collapse (slashesOf p != 0) (splitSep p)) = []
    · rw [hbody, if_pos hr]
      decide
    · rw [hbody, if_neg hr]
      exact normpath_reconstruct (slashesOf p) (slashesOf_le_two p) _
        (collapse_clean _ _)
        (fun g hg => splitSep_no_slash p g (collapse_mem _ _ g hg)) hr

theorem normpath_chars (p : List Char) : ∀ c ∈ normpath p, c = '/' ∨ c = '.' ∨ c ∈ p := by
  intro c hc
  rw [normpath] at hc
  by_cases hp : p = []
  · rw [if_pos hp] at hc
    rw [List.mem_singleton] at hc
    exact Or.inr (Or.inl hc)
  · rw [if_neg hp] at hc
    split at hc
    · rw [List.mem_singleton] at hc
      exact Or.inr (Or.inl hc)
    · rcases List.mem_append.mp hc with h | h
      · exact Or.inl (List.eq_of_mem_replicate h)
      · rcases joinSep_chars _ c h with h2 | ⟨g, hg, hcg⟩
        · exact Or.inl h2
        · exact Or.inr (Or.inr (splitSep_chars p g (collapse_mem _ _ g hg) c hcg))

theorem map_replace_eq_self (l : List Char) (h : '\\' ∉ l) :
    l.map (fun c => if c = '\\' then '/' else c) = l := by
  induction l with
  | nil => rfl
  | cons c cs ih =>
    have hc : c ≠ '\\' := fun he => h (he ▸ List.mem_cons_self c cs)
    rw [List.map_cons, if_neg hc, ih (fun hm => h (List.mem_cons_of_mem c hm))]

theorem normalize_path_nil_pfx (p : List Char) :
    normalize_path [] p = (normpath p).map (fun c => if c = '\\' then '/' else c) := rfl

theorem no_backslash_normpath (p : List Char) (h : '\\' ∉ p) : '\\' ∉ normpath p := by
  intro hc
  rcases normpath_chars p '\\' hc with h2 | h2 | h2
  · exact absurd h2 (by decide)
  · exact absurd h2 (by decide)
  · exact h h2

/-- C3: the claim is false as stated: with the non-empty prefix "pkg",
normalizing the path "b" twice prepends the prefix twice, so the result
is not idempotent (first conjunct); and even with an empty prefix a
backslash breaks idempotency, because the replacement step turns it into
a separator whose neighbouring ".." only collapses on the second pass
(second conjunct, on the path "a\.."). -/
theorem c3_not_idempotent_with_pfx :
    normalize_path ['p', 'k', 'g'] (normalize_path ['p', 'k', 'g'] ['b']) ≠
      normalize_path ['p', 'k', 'g'] ['b'] ∧
    normalize_path [] (normalize_path [] ['a', '\\', '.', '.']) ≠
      normalize_path [] ['a', '\\', '.', '.'] := by
  constructor
  · decide
  · decide

/-- C3 (amended): with an empty prefix and a path containing no
backslash, normalize_path is idempotent; with a non-empty prefix the
prefix is prepended again on every application (see the
counterexample). -/
theorem c3_normalize_idem_no_pfx (p : List Char) (h : '\\' ∉ p) :
    normalize_path [] (normalize_path [] p) = normalize_path [] p := by
  have h1 : '\\' ∉ normpath p := no_backslash_normpath p h
  have e1 : normalize_path [] p = normpath p := by
    rw [normalize_path_nil_pfx, map_replace_eq_self _ h1]
  have h2 : '\\' ∉ normpath (normpath p) := no_backslash_normpath (normpath p) h1
  rw [e1, normalize_path_nil_pfx, map_replace_eq_self _ h2, normpath_idem]

theorem c3_normalize_idem_witness :
    '\\' ∉ ['a', '/', '.', '.', '/', 'b'] ∧
    normalize_path [] (normalize_path [] ['a', '/', '.', '.', '/', 'b']) =
      normalize_path [] ['a', '/', '.', '.', '/', 'b'] :=
  ⟨by decide, c3_normalize_idem_no_pfx ['a', '/', '.', '.', '/', 'b'] (by decide)⟩
